import Mathlib

/-
Verification development for the NeoBreath PET preprocessing pipeline.

The development shallowly embeds the three core components of the
repository in Lean 4:

  * the depth trimmer, file preprocessing/volume_processing.py,
    method VolumeProcessor.trim_volume_by_threshold;
  * the intensity normalizer, file preprocessing/intensity_processing.py,
    methods IntensityProcessor._convert_to_suv and IntensityProcessor._normalize;
  * the slice loader and orderer, file preprocessing/dicom_converter.py,
    methods DicomConverter._get_z_position, DicomConverter.to_2d_array and
    DicomConverter.to_3d_array.

Modelling conventions:

  * numpy arrays are modelled as nested lists of exact rationals; python
    float literals such as 1e-8 are modelled as the exact rationals they
    denote, and float arithmetic is idealized as exact rational arithmetic
    (the astype float32 casts are modelled as the identity on values);
  * optional DICOM metadata attributes (hasattr probing, None values)
    are modelled as Option fields of explicit metadata structures;
  * code that raises is modelled with Except; code that logs a warning
    and falls back is modelled by returning the fallback value together
    with a tag describing the emitted warning;
  * python integer arithmetic is modelled over ℕ where the quantities
    involved are indices and counts that are nonnegative in every
    reachable state; each spot where truncated ℕ subtraction stands for a
    python expression is noted in a comment.
-/

namespace NeoBreath

/-- A 2D pixel grid (a numpy 2D array), as a list of rows of rationals. -/
abbrev Image := List (List ℚ)

/-- A 3D volume of shape (depth, height, width), as a list of 2D slices. -/
abbrev Volume := List Image

/-- The python literal 1e-8 used as an epsilon guard, as an exact rational. -/
def eps : ℚ := 1 / 100000000

/-- np.min of a nonempty collection of values (0 on the empty list, which
numpy rejects at runtime; no claim touches the empty case). -/
def listMin : List ℚ → ℚ
  | [] => 0
  | x :: xs => xs.foldl min x

/-- np.max of a nonempty collection of values, in the style of listMin. -/
def listMax : List ℚ → ℚ
  | [] => 0
  | x :: xs => xs.foldl max x

/-! ## Depth trimmer: preprocessing/volume_processing.py -/

/-- Sum of all entries of a 2D slice. -/
def sliceSum (s : Image) : ℚ := (s.map List.sum).sum

/-- Number of entries of a 2D slice. -/
def sliceCount (s : Image) : ℕ := (s.map List.length).sum

/-- Mean of a 2D slice, reducing over height and width: one scalar per
depth index, as in np.mean(volume, axis=(1, 2)). -/
def sliceMean (s : Image) : ℚ := sliceSum s / (sliceCount s : ℚ)

/-- slice_intensities = np.mean(volume, axis=(1, 2)). -/
def sliceIntensities (v : Volume) : List ℚ := v.map sliceMean

/-- The re-normalization of the per-slice means performed by
trim_volume_by_threshold: if max > min divide the shifted values by
(max - min + 1e-8), otherwise (all slices with the same mean) replace
them by all ones, as np.ones_like does. -/
def normalizedIntensities (xs : List ℚ) : List ℚ :=
  if listMax xs > listMin xs then
    xs.map (fun x => (x - listMin xs) / (listMax xs - listMin xs + eps))
  else
    xs.map (fun _ => 1)

/-- The per-slice threshold criterion: in max_mode a slice is kept when its
normalized mean is ≥ the threshold, otherwise when it is < the threshold. -/
def meets (maxMode : Bool) (thr x : ℚ) : Bool :=
  if maxMode then decide (x ≥ thr) else decide (x < thr)

/-- Index of the first element satisfying p, scanning from the left;
models a python for-loop with break. -/
def findFirstIdx (p : ℚ → Bool) : List ℚ → Option ℕ
  | [] => none
  | x :: xs => if p x then some 0 else (findFirstIdx p xs).map (· + 1)

/-- start_idx scan of trim_volume_by_threshold: first index whose
normalized mean meets the criterion, defaulting to 0 when none does. -/
def findStart (norm : List ℚ) (thr : ℚ) (maxMode : Bool) : ℕ :=
  (findFirstIdx (meets maxMode thr) norm).getD 0

/-- end_idx scan of trim_volume_by_threshold: last index whose normalized
mean meets the criterion (a scan from depth - 1 downward), defaulting to
depth - 1 when none does.  Scanning the reversed list from the left is the
same loop read backwards. -/
def findEnd (norm : List ℚ) (thr : ℚ) (maxMode : Bool) : ℕ :=
  norm.length - 1 - (findFirstIdx (meets maxMode thr) norm.reverse).getD 0

/-- The index arithmetic of trim_volume_by_threshold after the two scans.
total_slices = end_idx - start_idx + 1 is computed in ℤ exactly as python
does; the recentering branch mirrors

    center = (start_idx + end_idx) // 2
    half_min = min_slices_to_keep // 2
    start_idx = max(0, center - half_min)
    end_idx = min(depth - 1, start_idx + min_slices_to_keep - 1)

where truncated ℕ subtraction center - half is exactly python
max(0, center - half_min), and s2 + minKeep - 1 agrees with python for
minKeep ≥ 1 (the branch is unreachable for minKeep = 0, since the two
scans always yield start_idx ≤ end_idx, so total_slices ≥ 1). -/
def trimIndices (norm : List ℚ) (thr : ℚ) (minKeep : ℕ) (maxMode : Bool) : ℕ × ℕ :=
  let depth := norm.length
  let s := findStart norm thr maxMode
  let e := findEnd norm thr maxMode
  if (e : ℤ) - (s : ℤ) + 1 < (minKeep : ℤ) then
    let center := (s + e) / 2
    let half := minKeep / 2
    let s2 := center - half
    let e2 := min (depth - 1) (s2 + minKeep - 1)
    (s2, e2)
  else
    (s, e)

/-- VolumeProcessor.trim_volume_by_threshold: compute the per-slice means,
re-normalize them, pick the start and end indices, enforce the minimum
count, and return volume[start_idx : end_idx + 1]. -/
def trim_volume_by_threshold (v : Volume) (thr : ℚ) (minKeep : ℕ) (maxMode : Bool) : Volume :=
  let p := trimIndices (normalizedIntensities (sliceIntensities v)) thr minKeep maxMode
  (v.drop p.1).take (p.2 + 1 - p.1)

/-! ### Basic lemmas about the scans -/

theorem normalizedIntensities_length (xs : List ℚ) :
    (normalizedIntensities xs).length = xs.length := by
  unfold normalizedIntensities
  split <;> simp

theorem sliceIntensities_length (v : Volume) :
    (sliceIntensities v).length = v.length := by
  simp [sliceIntensities]

theorem findFirstIdx_some_lt {p : ℚ → Bool} :
    ∀ {l : List ℚ} {i : ℕ}, findFirstIdx p l = some i → i < l.length := by
  intro l
  induction l with
  | nil => intro i h; simp [findFirstIdx] at h
  | cons x xs ih =>
    intro i h
    by_cases hx : p x
    · simp [findFirstIdx, hx] at h
      simp [List.length_cons]
      omega
    · simp [findFirstIdx, hx] at h
      obtain ⟨j, hj, rfl⟩ := h
      have := ih hj
      simp [List.length_cons]
      omega

theorem findFirstIdx_le_of_true {p : ℚ → Bool} :
    ∀ {l : List ℚ} {i : ℕ}, i < l.length → p (l.getD i 0) = true →
      ∃ j, findFirstIdx p l = some j ∧ j ≤ i := by
  intro l
  induction l with
  | nil => intro i hi; simp at hi
  | cons x xs ih =>
    intro i hi hp
    by_cases hx : p x
    · exact ⟨0, by simp [findFirstIdx, hx], Nat.zero_le i⟩
    · match i with
      | 0 => simp [hx] at hp
      | i + 1 =>
        have hi' : i < xs.length := by simpa using hi
        obtain ⟨j, hj, hle⟩ := ih hi' (by simpa using hp)
        exact ⟨j + 1, by simp [findFirstIdx, hx, hj], by omega⟩

theorem findFirstIdx_some_true {p : ℚ → Bool} :
    ∀ {l : List ℚ} {i : ℕ}, findFirstIdx p l = some i → p (l.getD i 0) = true := by
  intro l
  induction l with
  | nil => intro i h; simp [findFirstIdx] at h
  | cons x xs ih =>
    intro i h
    by_cases hx : p x
    · simp [findFirstIdx, hx] at h
      subst h
      simpa using hx
    · simp [findFirstIdx, hx] at h
      obtain ⟨j, hj, rfl⟩ := h
      simpa using ih hj

/-- The two scans of trim_volume_by_threshold never cross: on a nonempty
list of means the first index meeting the criterion is at most the last
index meeting it, and when no index meets it the defaults 0 and depth - 1
are in order as well. -/
theorem findStart_le_findEnd (norm : List ℚ) (thr : ℚ) (mm : Bool)
    (h : norm ≠ []) : findStart norm thr mm ≤ findEnd norm thr mm := by
  have hlen : 0 < norm.length := List.length_pos.2 h
  unfold findStart findEnd
  cases hfi : findFirstIdx (meets mm thr) norm with
  | none => simp
  | some i =>
    have hi : i < norm.length := findFirstIdx_some_lt hfi
    have hp : meets mm thr (norm.getD i 0) = true := findFirstIdx_some_true hfi
    have hk : norm.length - 1 - i < norm.reverse.length := by
      simp; omega
    have hrev : norm.reverse.getD (norm.length - 1 - i) 0 = norm.getD i 0 := by
      rw [List.getD_eq_getElem _ _ hk, List.getD_eq_getElem _ _ hi]
      rw [List.getElem_reverse]
      congr 1
      omega
    obtain ⟨j, hj, hle⟩ :=
      findFirstIdx_le_of_true (p := meets mm thr) hk (by rw [hrev]; exact hp)
    simp [hj]
    omega

/-- findEnd never exceeds depth - 1. -/
theorem findEnd_le (norm : List ℚ) (thr : ℚ) (mm : Bool) :
    findEnd norm thr mm ≤ norm.length - 1 := by
  unfold findEnd
  omega

/-- findStart is an index of the list when the list is nonempty. -/
theorem findStart_lt (norm : List ℚ) (thr : ℚ) (mm : Bool)
    (h : norm ≠ []) : findStart norm thr mm < norm.length := by
  have hlen : 0 < norm.length := List.length_pos.2 h
  unfold findStart
  cases hfi : findFirstIdx (meets mm thr) norm with
  | none => simpa
  | some i => simpa using findFirstIdx_some_lt hfi

/-- The pair produced by trimIndices is always an in-bounds, non-crossing
pair of depth indices. -/
theorem trimIndices_bounds (norm : List ℚ) (thr : ℚ) (mk : ℕ) (mm : Bool)
    (h : norm ≠ []) :
    (trimIndices norm thr mk mm).1 ≤ (trimIndices norm thr mk mm).2 ∧
      (trimIndices norm thr mk mm).2 ≤ norm.length - 1 := by
  have hse := findStart_le_findEnd norm thr mm h
  have he := findEnd_le norm thr mm
  have hs := findStart_lt norm thr mm h
  simp only [trimIndices]
  split
  · next hcond =>
    dsimp only
    omega
  · exact ⟨hse, he⟩

/-! ### Concrete volumes used to evaluate the trimmer -/

/-- A depth-10 volume of 1x1 slices in which only the last slice carries
signal; its per-slice means are nine zeros followed by a one. -/
def vol10 : Volume :=
  [[[0]], [[0]], [[0]], [[0]], [[0]], [[0]], [[0]], [[0]], [[0]], [[1]]]

theorem vol10_intensities :
    sliceIntensities vol10 = [0, 0, 0, 0, 0, 0, 0, 0, 0, 1] := by
  norm_num [vol10, sliceIntensities, sliceMean, sliceSum, sliceCount]

theorem vol10_norm :
    normalizedIntensities (sliceIntensities vol10) =
      [0, 0, 0, 0, 0, 0, 0, 0, 0, 100000000 / 100000001] := by
  rw [vol10_intensities]
  norm_num [normalizedIntensities, listMin, listMax, eps, max_def, min_def]

theorem vol10_findStart :
    findStart (normalizedIntensities (sliceIntensities vol10)) (1/2) true = 9 := by
  rw [vol10_norm]
  norm_num [findStart, findFirstIdx, meets]

theorem vol10_findEnd :
    findEnd (normalizedIntensities (sliceIntensities vol10)) (1/2) true = 9 := by
  rw [vol10_norm]
  norm_num [findEnd, findFirstIdx, meets, List.reverse]

theorem vol10_trimIndices :
    trimIndices (normalizedIntensities (sliceIntensities vol10)) (1/2) 8 true = (5, 9) := by
  simp only [trimIndices, vol10_findStart, vol10_findEnd,
    normalizedIntensities_length, sliceIntensities_length]
  norm_num [vol10]

/-- A depth-10 volume of 1x1 slices whose per-slice means increase
linearly from 0 to 1. -/
def vol10lin : Volume :=
  [[[0]], [[1/9]], [[2/9]], [[3/9]], [[4/9]], [[5/9]], [[6/9]], [[7/9]], [[8/9]], [[1]]]

theorem vol10lin_intensities :
    sliceIntensities vol10lin = [0, 1/9, 2/9, 3/9, 4/9, 5/9, 6/9, 7/9, 8/9, 1] := by
  norm_num [vol10lin, sliceIntensities, sliceMean, sliceSum, sliceCount]

theorem vol10lin_norm :
    normalizedIntensities (sliceIntensities vol10lin) =
      [0, 1/9, 2/9, 3/9, 4/9, 5/9, 6/9, 7/9, 8/9, 1].map
        (fun x => x / (1 + eps)) := by
  rw [vol10lin_intensities]
  norm_num [normalizedIntensities, listMin, listMax, max_def, min_def]

theorem vol10lin_trimIndices_up :
    trimIndices (normalizedIntensities (sliceIntensities vol10lin)) (1/2) 2 true = (5, 9) := by
  have hs : findStart (normalizedIntensities (sliceIntensities vol10lin)) (1/2) true = 5 := by
    rw [vol10lin_norm]
    norm_num [findStart, findFirstIdx, meets, eps]
  have he : findEnd (normalizedIntensities (sliceIntensities vol10lin)) (1/2) true = 9 := by
    rw [vol10lin_norm]
    norm_num [findEnd, findFirstIdx, meets, eps, List.reverse]
  simp only [trimIndices, hs, he]
  norm_num

theorem vol10lin_trimIndices_down :
    trimIndices (normalizedIntensities (sliceIntensities vol10lin)) (1/2) 2 false = (0, 4) := by
  have hs : findStart (normalizedIntensities (sliceIntensities vol10lin)) (1/2) false = 0 := by
    rw [vol10lin_norm]
    norm_num [findStart, findFirstIdx, meets, eps]
  have he : findEnd (normalizedIntensities (sliceIntensities vol10lin)) (1/2) false = 4 := by
    rw [vol10lin_norm]
    norm_num [findEnd, findFirstIdx, meets, eps, List.reverse]
  simp only [trimIndices, hs, he]
  norm_num

/-! ### Claims about the depth trimmer -/

/-- C1: the claim states that whenever the input depth is at least
min_slices_to_keep the trimmed depth is at least min_slices_to_keep, and
that for smaller depths the whole volume is returned.  The code fails the
first part: on a depth-10 volume whose only signal sits in the last
slice, with threshold 1/2, min_slices_to_keep = 8 and max_mode = True,
the found range is [9, 9], the recentering sets start = 5 and clamps end
at 9, and only 5 < 8 slices come back even though depth = 10 ≥ 8.  This
contradicts the documented contract of min_slices_to_keep (a minimum
number of slices to keep), so the claim is recorded as a code bug; this
theorem evaluates the code at the failing input. -/
theorem claim_C1_eval :
    vol10.length = 10 ∧ (8:ℕ) ≤ vol10.length ∧
      trim_volume_by_threshold vol10 (1/2) 8 true =
        [[[0]], [[0]], [[0]], [[0]], [[1]]] ∧
      (trim_volume_by_threshold vol10 (1/2) 8 true).length = 5 := by
  refine ⟨by norm_num [vol10], by norm_num [vol10], ?_, ?_⟩ <;>
    simp only [trim_volume_by_threshold, vol10_trimIndices] <;>
    norm_num [vol10]

/-- Modelled from the C2 claim words (not from the code, which it is
compared against): re-center by taking the floor midpoint of the found
range [s, e], expanding outward by minKeep / 2 on both sides, clamping to
the valid bounds [0, depth - 1], and, when the upper expansion is clamped
at depth - 1, extending downward first so that the final range still has
minKeep slices.  Truncated ℕ subtraction plays the role of clamping at 0. -/
def recenterClaim (s e minKeep depth : ℕ) : ℕ × ℕ :=
  let center := (s + e) / 2
  let half := minKeep / 2
  if depth - 1 < center + half then
    (depth - minKeep, depth - 1)
  else
    (center - half, center + half)

/-- C2 counterexample: on the depth-10 volume with signal only in slice 9,
threshold 1/2, min_slices_to_keep = 8 and max_mode = True, the found
range is [9, 9]; the procedure worded by the claim would extend downward
after clamping at the upper bound and return the range (2, 9) of length
8, but the code returns (5, 9), of length 5 — so the description of the
recentering given by the claim is false of the code. -/
theorem claim_C2_counterexample :
    trimIndices (normalizedIntensities (sliceIntensities vol10)) (1/2) 8 true = (5, 9) ∧
      recenterClaim (findStart (normalizedIntensities (sliceIntensities vol10)) (1/2) true)
        (findEnd (normalizedIntensities (sliceIntensities vol10)) (1/2) true) 8 10 = (2, 9) ∧
      ((5, 9) : ℕ × ℕ) ≠ (2, 9) := by
  refine ⟨vol10_trimIndices, ?_, by decide⟩
  rw [vol10_findStart, vol10_findEnd]
  norm_num [recenterClaim]

/-- C2 amended: when the found inclusive range [s, e] is shorter than
min_slices_to_keep, the code sets the new start to the floor midpoint of
[s, e] minus min_slices_to_keep / 2 (truncated at 0) and the new end to
start + min_slices_to_keep - 1 clamped at depth - 1; no downward
extension is applied when the end is clamped, so the final length is
min(min_slices_to_keep, depth - start) and can fall short of
min_slices_to_keep. -/
theorem claim_C2_amended (norm : List ℚ) (thr : ℚ) (mk : ℕ) (mm : Bool)
    (hne : norm ≠ [])
    (hshort : (findEnd norm thr mm : ℤ) - (findStart norm thr mm : ℤ) + 1 < (mk : ℤ)) :
    trimIndices norm thr mk mm =
      ((findStart norm thr mm + findEnd norm thr mm) / 2 - mk / 2,
        min (norm.length - 1)
          ((findStart norm thr mm + findEnd norm thr mm) / 2 - mk / 2 + mk - 1)) ∧
      (trimIndices norm thr mk mm).2 + 1 - (trimIndices norm thr mk mm).1 =
        min mk (norm.length -
          ((findStart norm thr mm + findEnd norm thr mm) / 2 - mk / 2)) := by
  have hse := findStart_le_findEnd norm thr mm hne
  have he := findEnd_le norm thr mm
  have hs := findStart_lt norm thr mm hne
  have heq : trimIndices norm thr mk mm =
      ((findStart norm thr mm + findEnd norm thr mm) / 2 - mk / 2,
        min (norm.length - 1)
          ((findStart norm thr mm + findEnd norm thr mm) / 2 - mk / 2 + mk - 1)) := by
    simp only [trimIndices]
    rw [if_pos hshort]
  refine ⟨heq, ?_⟩
  rw [heq]
  dsimp only
  omega

/-- C2 amended, witness at the concrete depth-10 input evaluated above:
the recentered range has length min 8 (10 - 5) = 5. -/
theorem claim_C2_amended_witness :
    (trimIndices (normalizedIntensities (sliceIntensities vol10)) (1/2) 8 true).2 + 1 -
        (trimIndices (normalizedIntensities (sliceIntensities vol10)) (1/2) 8 true).1 =
      min 8 ((normalizedIntensities (sliceIntensities vol10)).length -
        ((findStart (normalizedIntensities (sliceIntensities vol10)) (1/2) true +
          findEnd (normalizedIntensities (sliceIntensities vol10)) (1/2) true) / 2 - 8 / 2)) :=
  (claim_C2_amended (normalizedIntensities (sliceIntensities vol10)) (1/2) 8 true
    (by rw [vol10_norm]; simp)
    (by rw [vol10_findStart, vol10_findEnd]; norm_num)).2

/-- C4: for the depth-10 volume whose per-slice means increase linearly
from 0 to 1, with threshold 1/2 and min_slices_to_keep = 2, keep-above
mode returns exactly slices 5 through 9 and keep-below mode returns
exactly slices 0 through 4 (zero-based, inclusive). -/
theorem claim_C4_complementary_modes :
    trim_volume_by_threshold vol10lin (1/2) 2 true =
        [[[5/9]], [[6/9]], [[7/9]], [[8/9]], [[1]]] ∧
      trim_volume_by_threshold vol10lin (1/2) 2 false =
        [[[0]], [[1/9]], [[2/9]], [[3/9]], [[4/9]]] := by
  constructor
  · simp only [trim_volume_by_threshold, vol10lin_trimIndices_up]
    norm_num [vol10lin]
  · simp only [trim_volume_by_threshold, vol10lin_trimIndices_down]
    norm_num [vol10lin]

/-- C10: for every volume of depth at least 1 and every
min_slices_to_keep at least 1, the trimmer returns
volume[start : end + 1] for some indices 0 ≤ start ≤ end ≤ depth - 1: a
non-empty contiguous depth sub-range whose slices are value-identical to
the corresponding input slices.  (The embedding is a total function, so
the code raises no exception on this domain.) -/
theorem claim_C10_trim_contiguous (v : Volume) (thr : ℚ) (mk : ℕ) (mm : Bool)
    (hd : 1 ≤ v.length) (_hm : 1 ≤ mk) :
    ∃ s e : ℕ, s ≤ e ∧ e ≤ v.length - 1 ∧
      trim_volume_by_threshold v thr mk mm = (v.drop s).take (e + 1 - s) ∧
      trim_volume_by_threshold v thr mk mm ≠ [] := by
  have hne : normalizedIntensities (sliceIntensities v) ≠ [] := by
    have : (normalizedIntensities (sliceIntensities v)).length = v.length := by
      rw [normalizedIntensities_length, sliceIntensities_length]
    intro hcon
    rw [hcon] at this
    simp at this
    omega
  obtain ⟨h1, h2⟩ := trimIndices_bounds (normalizedIntensities (sliceIntensities v)) thr mk mm hne
  rw [normalizedIntensities_length, sliceIntensities_length] at h2
  refine ⟨(trimIndices (normalizedIntensities (sliceIntensities v)) thr mk mm).1,
    (trimIndices (normalizedIntensities (sliceIntensities v)) thr mk mm).2, h1, h2, rfl, ?_⟩
  have hlen : (trim_volume_by_threshold v thr mk mm).length =
      min ((trimIndices (normalizedIntensities (sliceIntensities v)) thr mk mm).2 + 1 -
          (trimIndices (normalizedIntensities (sliceIntensities v)) thr mk mm).1)
        (v.length - (trimIndices (normalizedIntensities (sliceIntensities v)) thr mk mm).1) := by
    simp [trim_volume_by_threshold]
  intro hcon
  rw [hcon] at hlen
  simp at hlen
  omega

/-- C10 witness: the depth-1 volume [[[0]]] with threshold 1/2 and
min_slices_to_keep = 1 satisfies the hypotheses, and the conclusion holds
there. -/
theorem claim_C10_witness :
    1 ≤ ([[[(0:ℚ)]]] : Volume).length ∧ (1:ℕ) ≤ 1 ∧
      (∃ s e : ℕ, s ≤ e ∧ e ≤ ([[[(0:ℚ)]]] : Volume).length - 1 ∧
        trim_volume_by_threshold [[[(0:ℚ)]]] (1/2) 1 true =
          (([[[(0:ℚ)]]] : Volume).drop s).take (e + 1 - s) ∧
        trim_volume_by_threshold [[[(0:ℚ)]]] (1/2) 1 true ≠ []) :=
  ⟨by norm_num, le_refl 1,
    claim_C10_trim_contiguous [[[(0:ℚ)]]] (1/2) 1 true (by norm_num) (le_refl 1)⟩

/-! ## Intensity normalizer: preprocessing/intensity_processing.py -/

/-- One entry of the RadiopharmaceuticalInformationSequence metadata: the
total administered dose, absent or None both modelled as none. -/
structure RphInfo where
  RadionuclideTotalDose : Option ℚ

/-- The slice metadata attributes probed by IntensityProcessor; a missing
attribute and a python None are both modelled as none. -/
structure PetMetadata where
  Modality : String
  PatientWeight : Option ℚ
  RadiopharmaceuticalInformationSequence : Option (List RphInfo)

/-- The distinct warnings logged by _convert_to_suv when a skip condition
triggers. -/
inductive SuvSkip
  | weightMissing
  | seqMissing
  | doseMissing
  | doseZero
deriving DecidableEq

/-- IntensityProcessor._convert_to_suv.  On each skip condition the raw
pixel grid is returned unchanged together with the tag of the logged
warning (python casts the grid to float32; the values are unchanged and
the cast is the identity in the rational model); otherwise every pixel is
replaced by pixel * weight / dose with dose = RadionuclideTotalDose / 1e6.
An empty RadiopharmaceuticalInformationSequence is falsy in python, hence
the some [] case skips exactly like the missing-attribute case. -/
def convert_to_suv (image : Image) (m : PetMetadata) : Image × Option SuvSkip :=
  match m.PatientWeight with
  | none => (image, some SuvSkip.weightMissing)
  | some weight =>
    match m.RadiopharmaceuticalInformationSequence with
    | none => (image, some SuvSkip.seqMissing)
    | some [] => (image, some SuvSkip.seqMissing)
    | some (rph :: _) =>
      match rph.RadionuclideTotalDose with
      | none => (image, some SuvSkip.doseMissing)
      | some rawDose =>
        let dose := rawDose / 1000000
        if dose = 0 then (image, some SuvSkip.doseZero)
        else (image.map (fun row => row.map (fun x => x * weight / dose)), none)

/-- All entries of a 2D slice in row-major order. -/
def imageValues (img : Image) : List ℚ := img.foldr (fun r acc => r ++ acc) []

/-- All entries of a 3D volume in row-major order (the flattened numpy
array over which np.min and np.max reduce). -/
def volValues (v : Volume) : List ℚ := v.foldr (fun img acc => imageValues img ++ acc) []

/-- IntensityProcessor._normalize, as applied to the assembled 3D volume
in the pipeline: (value - min) / (max - min + 1e-8) over the global
minimum and maximum of the array. -/
def normalize (v : Volume) : Volume :=
  v.map (fun img => img.map (fun row => row.map
    (fun x => (x - listMin (volValues v)) /
      (listMax (volValues v) - listMin (volValues v) + eps))))

/-! ### Lemmas about minima, maxima and pointwise maps -/

theorem foldl_min_le_init (a : ℚ) : ∀ (l : List ℚ), l.foldl min a ≤ a := by
  intro l
  induction l generalizing a with
  | nil => simp
  | cons x xs ih =>
    simp only [List.foldl_cons]
    exact le_trans (ih (min a x)) (min_le_left a x)

theorem foldl_min_le_mem (a : ℚ) :
    ∀ (l : List ℚ), ∀ x ∈ l, l.foldl min a ≤ x := by
  intro l
  induction l generalizing a with
  | nil => simp
  | cons y ys ih =>
    intro x hx
    simp only [List.mem_cons] at hx
    rcases hx with rfl | hx
    · exact le_trans (foldl_min_le_init (min a x) ys) (min_le_right a x)
    · exact ih (min a y) x hx

theorem listMin_le_mem (l : List ℚ) : ∀ x ∈ l, listMin l ≤ x := by
  cases l with
  | nil => simp
  | cons y ys =>
    intro x hx
    simp only [List.mem_cons] at hx
    rcases hx with rfl | hx
    · exact foldl_min_le_init x ys
    · exact foldl_min_le_mem y ys x hx

theorem init_le_foldl_max (a : ℚ) : ∀ (l : List ℚ), a ≤ l.foldl max a := by
  intro l
  induction l generalizing a with
  | nil => simp
  | cons x xs ih =>
    simp only [List.foldl_cons]
    exact le_trans (le_max_left a x) (ih (max a x))

theorem mem_le_foldl_max (a : ℚ) :
    ∀ (l : List ℚ), ∀ x ∈ l, x ≤ l.foldl max a := by
  intro l
  induction l generalizing a with
  | nil => simp
  | cons y ys ih =>
    intro x hx
    simp only [List.mem_cons] at hx
    rcases hx with rfl | hx
    · exact le_trans (le_max_right a x) (init_le_foldl_max (max a x) ys)
    · exact ih (max a y) x hx

theorem mem_le_listMax (l : List ℚ) : ∀ x ∈ l, x ≤ listMax l := by
  cases l with
  | nil => simp
  | cons y ys =>
    intro x hx
    simp only [List.mem_cons] at hx
    rcases hx with rfl | hx
    · exact init_le_foldl_max x ys
    · exact mem_le_foldl_max y ys x hx

theorem imageValues_map (f : ℚ → ℚ) (img : Image) :
    imageValues (img.map (fun row => row.map f)) = (imageValues img).map f := by
  induction img with
  | nil => simp [imageValues]
  | cons r rs ih => simp [imageValues, List.map_append] at ih ⊢; exact ih

theorem volValues_map (f : ℚ → ℚ) (v : Volume) :
    volValues (v.map (fun img => img.map (fun row => row.map f))) =
      (volValues v).map f := by
  induction v with
  | nil => simp [volValues]
  | cons img imgs ih =>
    simp [volValues, List.map_append, imageValues_map] at ih ⊢
    exact ih

/-! ### Claims about the intensity normalizer -/

/-- C3 counterexample: on the volume [[[0, 1]]] the global maximum 1
exceeds the minimum 0, yet the position of the maximum maps to
100000000 / 100000001, which is not 1 — refuting the claim that the
output range is exactly [0, 1] inclusive with the maximum mapping to
exactly 1. -/
theorem claim_C3_counterexample :
    listMin (volValues [[[0, 1]]]) = 0 ∧ listMax (volValues [[[0, 1]]]) = 1 ∧
      normalize [[[0, 1]]] = [[[0, 100000000 / 100000001]]] ∧
      (100000000 / 100000001 : ℚ) ≠ 1 := by
  norm_num [normalize, volValues, imageValues, listMin, listMax, eps, min_def, max_def]

/-- C3 amended: for every volume whose maximum exceeds its minimum, the
normalized output is the pointwise image of (x - min) / (max - min + 1e-8);
the position of the input minimum maps to exactly 0, the position of the
input maximum maps to (max - min) / (max - min + 1e-8), a value strictly
between 0 and 1, and every output value lies in [0, 1) — the upper bound
1 is approached but never attained. -/
theorem claim_C3_amended (v : Volume)
    (h : listMin (volValues v) < listMax (volValues v)) :
    volValues (normalize v) = (volValues v).map
        (fun x => (x - listMin (volValues v)) /
          (listMax (volValues v) - listMin (volValues v) + eps)) ∧
      (listMin (volValues v) - listMin (volValues v)) /
          (listMax (volValues v) - listMin (volValues v) + eps) = 0 ∧
      0 < (listMax (volValues v) - listMin (volValues v)) /
          (listMax (volValues v) - listMin (volValues v) + eps) ∧
      (listMax (volValues v) - listMin (volValues v)) /
          (listMax (volValues v) - listMin (volValues v) + eps) < 1 ∧
      ∀ x ∈ volValues v,
        0 ≤ (x - listMin (volValues v)) /
            (listMax (volValues v) - listMin (volValues v) + eps) ∧
          (x - listMin (volValues v)) /
            (listMax (volValues v) - listMin (volValues v) + eps) < 1 := by
  set m := listMin (volValues v) with hm
  set M := listMax (volValues v) with hM
  have heps : (0:ℚ) < eps := by norm_num [eps]
  have hden : (0:ℚ) < M - m + eps := by linarith
  refine ⟨volValues_map _ v, by simp, ?_, ?_, ?_⟩
  · apply div_pos (by linarith) hden
  · rw [div_lt_one hden]
    linarith
  · intro x hx
    have h1 : m ≤ x := listMin_le_mem _ x hx
    have h2 : x ≤ M := mem_le_listMax _ x hx
    constructor
    · exact div_nonneg (by linarith) (le_of_lt hden)
    · rw [div_lt_one hden]
      linarith

/-- C3 amended, witness at the volume [[[0, 1]]]: its minimum 0 is below
its maximum 1 and every normalized value lies in [0, 1). -/
theorem claim_C3_amended_witness :
    (listMin (volValues [[[0, 1]]]) < listMax (volValues [[[0, 1]]])) ∧
      ∀ x ∈ volValues ([[[0, 1]]] : Volume),
        0 ≤ (x - listMin (volValues [[[0, 1]]])) /
            (listMax (volValues [[[0, 1]]]) - listMin (volValues [[[0, 1]]]) + eps) ∧
          (x - listMin (volValues [[[0, 1]]])) /
            (listMax (volValues [[[0, 1]]]) - listMin (volValues [[[0, 1]]]) + eps) < 1 :=
  ⟨by norm_num [volValues, imageValues, listMin, listMax, min_def, max_def],
    (claim_C3_amended [[[0, 1]]]
      (by norm_num [volValues, imageValues, listMin, listMax, min_def, max_def])).2.2.2.2⟩

/-- The metadata of the C5 scenario: a non-CT slice with PatientWeight 70
and a dose sequence whose first entry carries RadionuclideTotalDose
3.7e8. -/
def c5meta : PetMetadata :=
  { Modality := "PT", PatientWeight := some 70,
    RadiopharmaceuticalInformationSequence := some [⟨some 370000000⟩] }

/-- C5: on a pixel of value 100 with PatientWeight 70 and raw dose 3.7e8,
_convert_to_suv scales the dose down by 1e6 to 370 and returns
(100 * 70) / 370 = 700/37 ≈ 18.92 for that pixel, with no warning. -/
theorem claim_C5_suv_scenario :
    (370000000 : ℚ) / 1000000 = 370 ∧
      convert_to_suv [[100]] c5meta = ([[700/37]], none) ∧
      (700/37 : ℚ) = 100 * 70 / 370 ∧
      |(700/37 : ℚ) - 1892/100| < 1/100 := by
  refine ⟨by norm_num, ?_, by norm_num, ?_⟩
  · norm_num [convert_to_suv, c5meta]
  · rw [abs_sub_lt_iff]
    norm_num

/-- The disjunction of the four skip conditions of _convert_to_suv:
missing or None PatientWeight; missing RadiopharmaceuticalInformationSequence;
empty sequence; missing or None RadionuclideTotalDose in its first entry;
or a scaled dose equal to exactly zero. -/
def suvSkipCondition (m : PetMetadata) : Prop :=
  m.PatientWeight = none ∨
    m.RadiopharmaceuticalInformationSequence = none ∨
    m.RadiopharmaceuticalInformationSequence = some [] ∨
    (∃ rph rest, m.RadiopharmaceuticalInformationSequence = some (rph :: rest) ∧
      rph.RadionuclideTotalDose = none) ∨
    (∃ rph rest d, m.RadiopharmaceuticalInformationSequence = some (rph :: rest) ∧
      rph.RadionuclideTotalDose = some d ∧ d / 1000000 = 0)

/-- C6: on every skip condition — missing weight, missing or empty dose
sequence, missing dose field, or a computed dose of exactly zero —
_convert_to_suv returns the input pixel grid with values unchanged and
emits a warning; the embedding is total, so no exception is raised. -/
theorem claim_C6_suv_skip (image : Image) (m : PetMetadata)
    (h : suvSkipCondition m) :
    (convert_to_suv image m).1 = image ∧
      ((convert_to_suv image m).2).isSome = true := by
  obtain ⟨mod, pw, rs⟩ := m
  rcases h with h | h | h | ⟨rph, rest, hseq, hdose⟩ | ⟨rph, rest, d, hseq, hdose, hz⟩ <;>
    cases pw <;> simp_all [convert_to_suv, suvSkipCondition]

/-- C6 witness: metadata with no PatientWeight triggers the skip and the
pixel grid [[100]] comes back unchanged with a warning. -/
theorem claim_C6_witness :
    suvSkipCondition ⟨"PT", none, none⟩ ∧
      (convert_to_suv [[100]] ⟨"PT", none, none⟩).1 = [[100]] ∧
      ((convert_to_suv [[100]] ⟨"PT", none, none⟩).2).isSome = true :=
  ⟨Or.inl rfl, claim_C6_suv_skip [[100]] ⟨"PT", none, none⟩ (Or.inl rfl)⟩

/-! ## Slice loader and orderer: preprocessing/dicom_converter.py -/

/-- A decoded DICOM dataset: the pixel grid plus the metadata attributes
probed by the loader; a missing attribute and a python None are both
modelled as none. -/
structure DicomDataset where
  pixelData : Image
  ImagePositionPatient : Option (List ℚ)
  SliceLocation : Option ℚ
  InstanceNumber : Option ℚ

/-- Third step of _get_z_position: InstanceNumber, then the literal 0.0
with a logged fallback warning; the Bool flag records that the warning
was emitted. -/
def zFromInstance (d : DicomDataset) : ℚ × Bool :=
  match d.InstanceNumber with
  | some n => (n, false)
  | none => (0, true)

/-- Second step of _get_z_position: SliceLocation when present and not
None, else fall through to InstanceNumber. -/
def zFromLocation (d : DicomDataset) : ℚ × Bool :=
  match d.SliceLocation with
  | some z => (z, false)
  | none => zFromInstance d

/-- DicomConverter._get_z_position: the third component of
ImagePositionPatient when that attribute is present, truthy (non-empty)
and indexable at 2 (python catches the IndexError of a short list and
falls through); then SliceLocation; then InstanceNumber; else the
literal 0.0 together with the fallback warning. -/
def get_z_position (d : DicomDataset) : ℚ × Bool :=
  match d.ImagePositionPatient with
  | some l =>
    if l ≠ [] then
      match l[2]? with
      | some z => (z, false)
      | none => zFromLocation d
    else zFromLocation d
  | none => zFromLocation d

/-- A slice decorated with its resolved z-position, as built inside
to_2d_array before sorting. -/
abbrev ZSlice := ℚ × Image × DicomDataset

/-- Insert one decorated slice into an already sorted run, keeping it
before every element of equal key that was seen later: the insertion
step of a stable sort by the z key. -/
def insertByZ (x : ZSlice) : List ZSlice → List ZSlice
  | [] => [x]
  | y :: ys => if y.1 < x.1 then y :: insertByZ x ys else x :: y :: ys

/-- Stable insertion sort by the z key.  Python list.sort is a
documented stable sort, and a stable sort by a key over a linear order
is unique as a function, so this models slices.sort(key = first
component) extensionally. -/
def sortByZ : List ZSlice → List ZSlice
  | [] => []
  | x :: xs => insertByZ x (sortByZ xs)

/-- DicomConverter.to_2d_array on a collection of decoded datasets (the
per-file dcmread decode and its failure handling are the external
decoder collaborator; this models the surviving, decodable slices):
decorate each dataset with its resolved z-position, sort by that key,
and strip the key, returning (pixel_array, metadata) pairs. -/
def to_2d_array (files : List DicomDataset) : List (Image × DicomDataset) :=
  (sortByZ (files.map (fun ds => ((get_z_position ds).1, ds.pixelData, ds)))).map
    (fun t => t.2)

/-- numpy shape of a 2D grid, as (rows, length of the first row). -/
def imageShape (img : Image) : ℕ × ℕ :=
  (img.length, (img.head?.map List.length).getD 0)

/-- DicomConverter.to_3d_array: raises ValueError on an empty slice
list, modelled with Except.error; otherwise each slice already at the
target shape passes through unchanged, every other slice goes through
the external resampler (a black-box collaborator, passed as a
parameter), and the results are stacked into the volume. -/
def to_3d_array (resizeFn : Image → ℕ → Image) (slices : List Image)
    (targetSize : ℕ) : Except String Volume :=
  match slices with
  | [] => Except.error "No slices provided"
  | _ :: _ =>
    Except.ok (slices.map (fun s =>
      if imageShape s = (targetSize, targetSize) then s else resizeFn s targetSize))

/-! ### Lemmas about the stable sort -/

theorem insertByZ_perm (x : ZSlice) : ∀ l, List.Perm (insertByZ x l) (x :: l) := by
  intro l
  induction l with
  | nil => rfl
  | cons y ys ih =>
    by_cases h : y.1 < x.1
    · simp only [insertByZ, if_pos h]
      exact (ih.cons y).trans (List.Perm.swap x y ys)
    · simp only [insertByZ, if_neg h]
      exact List.Perm.refl _

theorem sortByZ_perm : ∀ l, List.Perm (sortByZ l) l := by
  intro l
  induction l with
  | nil => rfl
  | cons x xs ih => exact (insertByZ_perm x (sortByZ xs)).trans (ih.cons x)

theorem mem_sortByZ {a : ZSlice} {l : List ZSlice} :
    a ∈ sortByZ l ↔ a ∈ l := (sortByZ_perm l).mem_iff

theorem insertByZ_pairwise (x : ZSlice) :
    ∀ l, List.Pairwise (fun a b : ZSlice => a.1 ≤ b.1) l →
      List.Pairwise (fun a b : ZSlice => a.1 ≤ b.1) (insertByZ x l) := by
  intro l
  induction l with
  | nil => intro _; simp [insertByZ]
  | cons y ys ih =>
    intro h
    rw [List.pairwise_cons] at h
    by_cases hlt : y.1 < x.1
    · simp only [insertByZ, if_pos hlt]
      rw [List.pairwise_cons]
      refine ⟨?_, ih h.2⟩
      intro b hb
      rw [(insertByZ_perm x ys).mem_iff, List.mem_cons] at hb
      rcases hb with rfl | hb
      · exact le_of_lt hlt
      · exact h.1 b hb
    · simp only [insertByZ, if_neg hlt]
      rw [List.pairwise_cons]
      refine ⟨?_, by rw [List.pairwise_cons]; exact h⟩
      intro b hb
      rw [List.mem_cons] at hb
      rcases hb with rfl | hb
      · exact le_of_not_lt hlt
      · exact le_trans (le_of_not_lt hlt) (h.1 b hb)

theorem sortByZ_pairwise :
    ∀ l, List.Pairwise (fun a b : ZSlice => a.1 ≤ b.1) (sortByZ l) := by
  intro l
  induction l with
  | nil => simp [sortByZ]
  | cons x xs ih => exact insertByZ_pairwise x (sortByZ xs) ih

theorem filter_insertByZ (x : ZSlice) (k : ℚ) :
    ∀ l, (insertByZ x l).filter (fun t => decide (t.1 = k)) =
      if x.1 = k then x :: l.filter (fun t => decide (t.1 = k))
      else l.filter (fun t => decide (t.1 = k)) := by
  intro l
  induction l with
  | nil => by_cases hx : x.1 = k <;> simp [insertByZ, List.filter_cons, hx]
  | cons y ys ih =>
    by_cases hlt : y.1 < x.1
    · simp only [insertByZ, if_pos hlt]
      by_cases hx : x.1 = k
      · have hy : ¬ (y.1 = k) := by rw [← hx]; exact ne_of_lt hlt
        simp [List.filter_cons, hy, ih, hx]
      · simp [List.filter_cons, ih, hx]
    · simp only [insertByZ, if_neg hlt]
      by_cases hx : x.1 = k
      · simp [List.filter_cons, hx]
      · simp [List.filter_cons, hx]

theorem sortByZ_filter (k : ℚ) :
    ∀ l, (sortByZ l).filter (fun t => decide (t.1 = k)) =
      l.filter (fun t => decide (t.1 = k)) := by
  intro l
  induction l with
  | nil => rfl
  | cons x xs ih =>
    simp only [sortByZ, filter_insertByZ, ih, List.filter_cons]
    by_cases hx : x.1 = k
    · simp [hx]
    · simp [hx]

theorem insertByZ_of_le (x : ZSlice) (l : List ZSlice)
    (h : ∀ b ∈ l, x.1 ≤ b.1) : insertByZ x l = x :: l := by
  cases l with
  | nil => rfl
  | cons y ys =>
    have : ¬ (y.1 < x.1) := not_lt.2 (h y (List.mem_cons_self y ys))
    simp only [insertByZ, if_neg this]

theorem sortByZ_of_pairwise :
    ∀ l, List.Pairwise (fun a b : ZSlice => a.1 ≤ b.1) l → sortByZ l = l := by
  intro l
  induction l with
  | nil => intro _; rfl
  | cons x xs ih =>
    intro h
    rw [List.pairwise_cons] at h
    rw [sortByZ, ih h.2, insertByZ_of_le x xs h.1]

/-- The key stored by the decoration step is the resolved z-position of
the carried metadata; the property survives sorting since sorting
permutes the list. -/
theorem sortByZ_key_invariant (files : List DicomDataset) {t : ZSlice}
    (ht : t ∈ sortByZ (files.map (fun ds => ((get_z_position ds).1, ds.pixelData, ds)))) :
    t.1 = (get_z_position t.2.2).1 := by
  rw [mem_sortByZ, List.mem_map] at ht
  obtain ⟨ds, _, rfl⟩ := ht
  rfl

/-! ### Claims about the slice loader -/

/-- C7: _get_z_position resolves the z-position in strict priority
order: the third component of ImagePositionPatient when present and
well-formed; otherwise SliceLocation when present and not None;
otherwise InstanceNumber; otherwise exactly 0.0 together with one
fallback warning for that slice.  ImagePositionPatient fails to resolve
exactly when the attribute is absent or the list has no index 2 (an
empty list is falsy, a short list raises a caught IndexError). -/
theorem claim_C7_z_priority (d : DicomDataset) :
    (∀ l z, d.ImagePositionPatient = some l → l[2]? = some z →
      get_z_position d = (z, false)) ∧
    ((d.ImagePositionPatient = none ∨
        ∃ l, d.ImagePositionPatient = some l ∧ l[2]? = none) →
      ((∀ z, d.SliceLocation = some z → get_z_position d = (z, false)) ∧
        (d.SliceLocation = none → ∀ n, d.InstanceNumber = some n →
          get_z_position d = (n, false)) ∧
        (d.SliceLocation = none → d.InstanceNumber = none →
          get_z_position d = (0, true)))) := by
  obtain ⟨pix, ipp, sl, inst⟩ := d
  constructor
  · intro l z hipp hz
    have hne : l ≠ [] := by
      intro hcon
      rw [hcon] at hz
      simp at hz
    cases ipp with
    | none => simp at hipp
    | some l2 =>
      obtain rfl : l2 = l := by simpa using hipp
      simp [get_z_position, hne, hz]
  · intro hfail
    have hred : get_z_position ⟨pix, ipp, sl, inst⟩ =
        zFromLocation ⟨pix, ipp, sl, inst⟩ := by
      rcases hfail with h | ⟨l, hl, hz⟩
      · simp only at h
        subst h
        rfl
      · simp only at hl
        subst hl
        by_cases hne : l = []
        · subst hne
          simp [get_z_position]
        · simp [get_z_position, hne, hz]
    refine ⟨?_, ?_, ?_⟩
    · intro z hsl
      simp only at hsl
      subst hsl
      rw [hred]
      rfl
    · intro hsl n hin
      simp only at hsl hin
      subst hsl
      subst hin
      rw [hred]
      rfl
    · intro hsl hin
      simp only at hsl hin
      subst hsl
      subst hin
      rw [hred]
      rfl

/-- C7 witness: a slice with no position attribute at all resolves to
exactly 0.0 with the fallback warning. -/
theorem claim_C7_witness :
    get_z_position ⟨[[5]], none, none, none⟩ = (0, true) :=
  ((claim_C7_z_priority ⟨[[5]], none, none, none⟩).2 (Or.inl rfl)).2.2 rfl rfl

/-- C8: the loader output is sorted non-decreasing by resolved
z-position; slices of equal z-position keep their original relative
order (for every key, filtering the output at that key returns the
same subsequence as filtering the input); and on an input already
sorted by resolved z-position the loader returns the identical
ordering. -/
theorem claim_C8_loader_order (files : List DicomDataset) :
    List.Pairwise
        (fun a b : Image × DicomDataset =>
          (get_z_position a.2).1 ≤ (get_z_position b.2).1) (to_2d_array files) ∧
      (∀ k : ℚ,
        (to_2d_array files).filter (fun s => decide ((get_z_position s.2).1 = k)) =
          (files.map (fun ds => (ds.pixelData, ds))).filter
            (fun s => decide ((get_z_position s.2).1 = k))) ∧
      (List.Pairwise
          (fun a b : DicomDataset =>
            (get_z_position a).1 ≤ (get_z_position b).1) files →
        to_2d_array files = files.map (fun ds => (ds.pixelData, ds))) := by
  refine ⟨?_, ?_, ?_⟩
  · rw [to_2d_array, List.pairwise_map]
    refine List.Pairwise.imp_of_mem ?_
      (sortByZ_pairwise (files.map (fun ds => ((get_z_position ds).1, ds.pixelData, ds))))
    intro a b ha hb hab
    rw [sortByZ_key_invariant files ha, sortByZ_key_invariant files hb] at hab
    exact hab
  · intro k
    rw [to_2d_array, List.filter_map]
    have h1 : (sortByZ (files.map (fun ds => ((get_z_position ds).1, ds.pixelData, ds)))).filter
        ((fun s : Image × DicomDataset => decide ((get_z_position s.2).1 = k)) ∘
          (fun t : ZSlice => t.2)) =
        (sortByZ (files.map (fun ds => ((get_z_position ds).1, ds.pixelData, ds)))).filter
          (fun t : ZSlice => decide (t.1 = k)) := by
      apply List.filter_congr
      intro t ht
      simp only [Function.comp]
      rw [sortByZ_key_invariant files ht]
    rw [h1, sortByZ_filter]
    have h2 : (files.map (fun ds => ((get_z_position ds).1, ds.pixelData, ds))).filter
        (fun t : ZSlice => decide (t.1 = k)) =
        (files.map (fun ds => ((get_z_position ds).1, ds.pixelData, ds))).filter
          ((fun s : Image × DicomDataset => decide ((get_z_position s.2).1 = k)) ∘
            (fun t : ZSlice => t.2)) := by
      apply List.filter_congr
      intro t ht
      rw [List.mem_map] at ht
      obtain ⟨ds, _, rfl⟩ := ht
      rfl
    rw [h2, ← List.filter_map, List.map_map]
    rfl
  · intro hsorted
    rw [to_2d_array, sortByZ_of_pairwise, List.map_map]
    · rfl
    · rw [List.pairwise_map]
      exact hsorted

/-- Two concrete datasets, already in ascending z order, resolved through
SliceLocation. -/
def dsA : DicomDataset := ⟨[[1]], none, some 1, none⟩

def dsB : DicomDataset := ⟨[[2]], none, some 2, none⟩

/-- C8 witness: the loader keeps the already-sorted pair [dsA, dsB] in
its given order. -/
theorem claim_C8_witness :
    to_2d_array [dsA, dsB] = [dsA, dsB].map (fun ds => (ds.pixelData, ds)) :=
  (claim_C8_loader_order [dsA, dsB]).2.2
    (by norm_num [get_z_position, zFromLocation, dsA, dsB])

/-- C9: on the empty slice list, to_3d_array fails with the ValueError
message instead of returning a volume, for every resampler and every
target size; and the loader maps an empty collection of decodable files
to the empty sequence, so a study whose files all fail to decode aborts
at the stacking step rather than flowing an empty volume downstream. -/
theorem claim_C9_empty_raises :
    (∀ (resizeFn : Image → ℕ → Image) (targetSize : ℕ),
      to_3d_array resizeFn [] targetSize = Except.error "No slices provided") ∧
      to_2d_array [] = [] := by
  exact ⟨fun _ _ => rfl, rfl⟩

end NeoBreath
